import Mathlib

/-!
Verification development for the log reformatter in lnquy/nice (main.go).

The program reads JSON-lined logs, extracts a list of dot-path fields per
line via the external gjson path-query library, joins the non-blank values
with tab separators (optionally wrapping each value+tab segment in an ANSI
color escape), and writes at most one newline-terminated payload per input
line to a shared output sink.  File-backed pumps poll a cancellation signal
before each line read.

Everything below is translated from src/main.go.  The external collaborators
are modelled from their documented contracts, as the specification directs:
  * gjson (ParseBytes / Result.Get): modelled as a strict JSON parser that
    records, for every node, the exact raw character span it was parsed
    from, plus a dot-path lookup restricted to plain object keys and
    numeric array indices.  A gjson Result carries Type, Raw and Str,
    where Str is populated only for String-typed results, exactly as the
    gjson API documents.  Malformed lines parse to none and every lookup
    on them yields the empty result.
  * fatih/color: Color.Sprintf wraps the formatted text in the escape
    sequence of the color attribute (assumed enabled), i.e.
    ESC [ attr m text ESC [ 0 m.  A color is modelled by its attribute
    code (FgBlack = 30 .. FgWhite = 37, Reset = 0).

Strings are modelled as lists of characters; the Go byte strings in play
are ASCII, so characters stand in for bytes one for one.
-/

/-- Whitespace characters of the JSON grammar. -/
def isJsonWs (c : Char) : Bool :=
  c = ' ' || c = '\t' || c = '\n' || c = '\r'

/-- Space predicate of Go strings.TrimSpace (Latin-1 range). -/
def isSpaceChar (c : Char) : Bool :=
  c = ' ' || c = '\t' || c = '\n' || c = '\r' || c = '\u000B' || c = '\u000C' ||
  c = '\u0085' || c = ' '

/-- Model of Go strings.TrimSpace on character lists. -/
def trimSpace (cs : List Char) : List Char :=
  ((cs.dropWhile isSpaceChar).reverse.dropWhile isSpaceChar).reverse

/-- Model of Go strings.Split on a one-character separator. -/
def splitOnChar (sep : Char) : List Char → List (List Char)
  | [] => [[]]
  | c :: rest =>
    match splitOnChar sep rest with
    | [] => [[c]]
    | g :: gs => if c = sep then [] :: g :: gs else (c :: g) :: gs

/-- Numeric value of an all-digit token (used for array indices in paths). -/
def natOfDigits (cs : List Char) : Option Nat :=
  if cs ≠ [] ∧ cs.all Char.isDigit then
    some (cs.foldl (fun n c => n * 10 + (c.toNat - 48)) 0)
  else none

/-- Value of one hexadecimal digit. -/
def hexVal (c : Char) : Option Nat :=
  if c.isDigit then some (c.toNat - 48)
  else if 'a' ≤ c ∧ c ≤ 'f' then some (c.toNat - 87)
  else if 'A' ≤ c ∧ c ≤ 'F' then some (c.toNat - 55)
  else none

/-- Decoded character of a single-character JSON string escape. -/
def escChar (e : Char) : Option Char :=
  if e = '"' then some '"'
  else if e = '\\' then some '\\'
  else if e = '/' then some '/'
  else if e = 'b' then some '\x08'
  else if e = 'f' then some '\x0C'
  else if e = 'n' then some '\n'
  else if e = 'r' then some '\r'
  else if e = 't' then some '\t'
  else none

/-- JSON document tree.  Every node stores the raw character span it was
parsed from, mirroring gjson Result.Raw.  String nodes additionally store
their decoded content, mirroring gjson Result.Str. -/
inductive Json where
  | jnull (raw : List Char)
  | jbool (b : Bool) (raw : List Char)
  | jnum (raw : List Char)
  | jstr (s : List Char) (raw : List Char)
  | jarr (elems : List Json) (raw : List Char)
  | jobj (fields : List (List Char × Json)) (raw : List Char)

/-- Raw span of a node. -/
def Json.raw : Json → List Char
  | .jnull r => r
  | .jbool _ r => r
  | .jnum r => r
  | .jstr _ r => r
  | .jarr _ r => r
  | .jobj _ r => r

/-- Whether a node is a JSON container (object or array). -/
def Json.isContainer : Json → Bool
  | .jarr _ _ => true
  | .jobj _ _ => true
  | _ => false

/-- Characters a number token may contain (gjson is lenient here). -/
def isNumChar (c : Char) : Bool :=
  c.isDigit || c = '-' || c = '+' || c = '.' || c = 'e' || c = 'E'

/-- Characters a number token may start with. -/
def isNumStart (c : Char) : Bool :=
  c.isDigit || c = '-' || c = '+' || c = '.'

/-- Parse the body of a JSON string after its opening quote.  Returns the
decoded content, the consumed characters (closing quote included) and the
remaining input; consumed ++ remaining = input. -/
def parseStrBody : Nat → List Char → Option (List Char × List Char × List Char)
  | 0, _ => none
  | _ + 1, [] => none
  | fuel + 1, c :: rest =>
    if c = '"' then some ([], ['"'], rest)
    else if c = '\\' then
      match rest with
      | [] => none
      | e :: rest2 =>
        if e = 'u' then
          match rest2 with
          | h1 :: h2 :: h3 :: h4 :: rest3 =>
            match hexVal h1, hexVal h2, hexVal h3, hexVal h4 with
            | some a, some b, some c2, some d =>
              match parseStrBody fuel rest3 with
              | some (dec, con, r) =>
                some (Char.ofNat (((a * 16 + b) * 16 + c2) * 16 + d) :: dec,
                      '\\' :: 'u' :: h1 :: h2 :: h3 :: h4 :: con, r)
              | none => none
            | _, _, _, _ => none
          | _ => none
        else
          match escChar e with
          | some d =>
            match parseStrBody fuel rest2 with
            | some (dec, con, r) => some (d :: dec, '\\' :: e :: con, r)
            | none => none
          | none => none
    else
      match parseStrBody fuel rest with
      | some (dec, con, r) => some (c :: dec, c :: con, r)
      | none => none

mutual

/-- Parse one JSON value starting at the head of the input.  Returns the
node (whose raw span is exactly the consumed characters) and the remaining
input. -/
def parseVal : Nat → List Char → Option (Json × List Char)
  | 0, _ => none
  | _ + 1, [] => none
  | fuel + 1, c :: rest =>
    if c = '{' then
      match parseObjRest fuel true rest with
      | some (fields, con, r) => some (.jobj fields ('{' :: con), r)
      | none => none
    else if c = '[' then
      match parseArrRest fuel true rest with
      | some (elems, con, r) => some (.jarr elems ('[' :: con), r)
      | none => none
    else if c = '"' then
      match parseStrBody fuel rest with
      | some (dec, con, r) => some (.jstr dec ('"' :: con), r)
      | none => none
    else if c = 't' then
      match rest with
      | 'r' :: 'u' :: 'e' :: r => some (.jbool true ['t', 'r', 'u', 'e'], r)
      | _ => none
    else if c = 'f' then
      match rest with
      | 'a' :: 'l' :: 's' :: 'e' :: r => some (.jbool false ['f', 'a', 'l', 's', 'e'], r)
      | _ => none
    else if c = 'n' then
      match rest with
      | 'u' :: 'l' :: 'l' :: r => some (.jnull ['n', 'u', 'l', 'l'], r)
      | _ => none
    else if isNumStart c then
      some (.jnum ((c :: rest).takeWhile isNumChar), (c :: rest).dropWhile isNumChar)
    else none

/-- Parse one object member: key string, colon, value.  Returns the member,
the consumed characters and the remaining input. -/
def parseMember : Nat → List Char → Option ((List Char × Json) × List Char × List Char)
  | 0, _ => none
  | _ + 1, [] => none
  | fuel + 1, c :: rest =>
    if c = '"' then
      match parseStrBody fuel rest with
      | some (key, kcon, r2) =>
        match r2.dropWhile isJsonWs with
        | ':' :: r4 =>
          match parseVal fuel (r4.dropWhile isJsonWs) with
          | some (v, r6) =>
            some ((key, v),
                  '"' :: kcon ++ r2.takeWhile isJsonWs ++ ':' :: r4.takeWhile isJsonWs ++ v.raw,
                  r6)
          | none => none
        | _ => none
      | none => none
    else none

/-- Parse the remainder of an object after the opening brace (when first is
true) or after a member (when first is false). -/
def parseObjRest : Nat → Bool → List Char → Option (List (List Char × Json) × List Char × List Char)
  | 0, _, _ => none
  | fuel + 1, first, cs =>
    match cs.dropWhile isJsonWs with
    | [] => none
    | c :: r1 =>
      if c = '}' then some ([], cs.takeWhile isJsonWs ++ ['}'], r1)
      else if first then
        match parseMember fuel (c :: r1) with
        | some (kv, con, rest) =>
          match parseObjRest fuel false rest with
          | some (kvs, con2, rest2) =>
            some (kv :: kvs, cs.takeWhile isJsonWs ++ con ++ con2, rest2)
          | none => none
        | none => none
      else if c = ',' then
        match parseMember fuel (r1.dropWhile isJsonWs) with
        | some (kv, con, rest) =>
          match parseObjRest fuel false rest with
          | some (kvs, con2, rest2) =>
            some (kv :: kvs,
                  cs.takeWhile isJsonWs ++ ',' :: r1.takeWhile isJsonWs ++ con ++ con2,
                  rest2)
          | none => none
        | none => none
      else none

/-- Parse the remainder of an array after the opening bracket (when first is
true) or after an element (when first is false). -/
def parseArrRest : Nat → Bool → List Char → Option (List Json × List Char × List Char)
  | 0, _, _ => none
  | fuel + 1, first, cs =>
    match cs.dropWhile isJsonWs with
    | [] => none
    | c :: r1 =>
      if c = ']' then some ([], cs.takeWhile isJsonWs ++ [']'], r1)
      else if first then
        match parseVal fuel (c :: r1) with
        | some (v, rest) =>
          match parseArrRest fuel false rest with
          | some (vs, con2, rest2) =>
            some (v :: vs, cs.takeWhile isJsonWs ++ v.raw ++ con2, rest2)
          | none => none
        | none => none
      else if c = ',' then
        match parseVal fuel (r1.dropWhile isJsonWs) with
        | some (v, rest) =>
          match parseArrRest fuel false rest with
          | some (vs, con2, rest2) =>
            some (v :: vs,
                  cs.takeWhile isJsonWs ++ ',' :: r1.takeWhile isJsonWs ++ v.raw ++ con2,
                  rest2)
          | none => none
        | none => none
      else none

end

/-- Parse a whole input line as one JSON document (surrounding whitespace
allowed).  Lines that are not well-formed under this grammar yield none. -/
def parseLine (cs : List Char) : Option Json :=
  match parseVal (2 * cs.length + 4) (cs.dropWhile isJsonWs) with
  | some (j, rest) => if rest.all isJsonWs then some j else none
  | none => none

/-- Types of a gjson Result. -/
inductive GType where
  | tNull
  | tFalse
  | tNumber
  | tString
  | tTrue
  | tJSON
deriving DecidableEq

/-- Model of a gjson Result: its Type, its Raw span, and its Str field.
The gjson API documents Str as populated only when Type is String. -/
structure GResult where
  typ : GType
  raw : List Char
  str : List Char
deriving DecidableEq

/-- Zero gjson Result, returned for absent paths and unparsable lines. -/
def emptyGResult : GResult := ⟨GType.tNull, [], []⟩

/-- Result built from a parsed node, following the gjson field conventions:
containers have Type JSON; only String nodes populate Str. -/
def resultOf : Json → GResult
  | .jnull raw => ⟨GType.tNull, raw, []⟩
  | .jbool false raw => ⟨GType.tFalse, raw, []⟩
  | .jbool true raw => ⟨GType.tTrue, raw, []⟩
  | .jnum raw => ⟨GType.tNumber, raw, []⟩
  | .jstr s raw => ⟨GType.tString, raw, s⟩
  | .jarr _ raw => ⟨GType.tJSON, raw, []⟩
  | .jobj _ raw => ⟨GType.tJSON, raw, []⟩

/-- Dot-path lookup on a parsed document: each component selects an object
key (first match) or, on arrays, a numeric index.  This is the plain-path
fragment of gjson Get used by the program. -/
def getPath : List (List Char) → Json → Option Json
  | [], j => some j
  | k :: ks, Json.jobj fields _ =>
    match fields.find? (fun kv => kv.1 == k) with
    | some kv => getPath ks kv.2
    | none => none
  | k :: ks, .jarr elems _ =>
    match natOfDigits k with
    | some i =>
      match elems.get? i with
      | some e => getPath ks e
      | none => none
    | none => none
  | _ :: _, _ => none

/-- Model of gjson.ParseBytes(line).Get(path): empty Result when the line
does not parse or the path is absent, otherwise the Result of the node. -/
def gjsonGet (line path : List Char) : GResult :=
  match parseLine line with
  | none => emptyGResult
  | some j =>
    match getPath (splitOnChar '.' path) j with
    | none => emptyGResult
    | some j2 => resultOf j2

/-- Field value as computed by print in main.go: val starts as Result.Str
and is replaced by Result.Raw when the Result has Type JSON. -/
def extractVal (line path : List Char) : List Char :=
  let r := gjsonGet line path
  if r.typ = GType.tJSON then r.raw else r.str

/-- ANSI escape wrapping done by fatih color Sprintf for attribute c:
ESC [ c m text ESC [ 0 m. -/
def colorWrap (c : Nat) (s : List Char) : List Char :=
  '\x1b' :: '[' :: (Nat.toDigits 10 c ++ 'm' :: s) ++ ['\x1b', '[', '0', 'm']

/-- Output segment for the field at index idx holding value val: the value
plus a tab, color-wrapped when the color list has an entry at idx
(idx < len(outColors) in main.go). -/
def fieldSegment (outColors : List Nat) (idx : Nat) (val : List Char) : List Char :=
  match outColors.get? idx with
  | some c => colorWrap c (val ++ ['\t'])
  | none => val ++ ['\t']

/-- Buffer accumulation loop of print in main.go: for each field (indexed
from idx), extract its value, skip it when it trims to empty, otherwise
append its segment. -/
def buffAux (line : List Char) (outColors : List Nat) : Nat → List (List Char) → List Char
  | _, [] => []
  | idx, f :: fs =>
    (if trimSpace (extractVal line f) = [] then [] else fieldSegment outColors idx (extractVal line f))
      ++ buffAux line outColors (idx + 1) fs

/-- Model of print in main.go: build the buffer over all fields; when it is
empty write nothing (none), otherwise write the buffer plus one newline. -/
def print (line : List Char) (outFields : List (List Char)) (outColors : List Nat) :
    Option (List Char) :=
  let buff := buffAux line outColors 0 outFields
  if buff = [] then none else some (buff ++ ['\n'])

/-- Payloads print sends to the output sink for one line: none or one. -/
def printOutputs (line : List Char) (outFields : List (List Char)) (outColors : List Nat) :
    List (List Char) :=
  match print line outFields outColors with
  | none => []
  | some s => [s]

/-- Attribute code of a normalized color name; unknown names map to the
Reset attribute 0, as the default branch of getColorFormat does. -/
def colorAttr (x : List Char) : Nat :=
  if x = "black".data then 30
  else if x = "red".data then 31
  else if x = "green".data then 32
  else if x = "yellow".data then 33
  else if x = "blue".data then 34
  else if x = "magenta".data then 35
  else if x = "cyan".data then 36
  else if x = "white".data then 37
  else 0

/-- Attribute code of one comma token: trimmed, lowercased, then looked up. -/
def colorOfToken (t : List Char) : Nat :=
  colorAttr ((trimSpace t).map Char.toLower)

/-- Recognized color names (the non-default cases of getColorFormat). -/
def colorNames : List (List Char) :=
  ["black".data, "red".data, "green".data, "yellow".data,
   "blue".data, "magenta".data, "cyan".data, "white".data]

/-- Model of getColorFormat in main.go: nil for empty or all-whitespace
input, otherwise one attribute per comma-separated token. -/
def getColorFormat (inStr : List Char) : List Nat :=
  if inStr.length = 0 || trimSpace inStr = [] then []
  else (splitOnChar ',' inStr).map colorOfToken

/-- Occurrence of x as a contiguous span inside y. -/
def SubSpan (x y : List Char) : Prop := ∃ l r, l ++ x ++ r = y

/-- Invariant of parsed documents: the raw span of every child node occurs
contiguously inside the raw span of its parent, recursively. -/
inductive RawsOK : Json → Prop where
  | null : ∀ raw, RawsOK (.jnull raw)
  | bool : ∀ b raw, RawsOK (.jbool b raw)
  | num : ∀ raw, RawsOK (.jnum raw)
  | str : ∀ s raw, RawsOK (.jstr s raw)
  | arr : ∀ elems raw, (∀ e ∈ elems, SubSpan (Json.raw e) raw) →
      (∀ e ∈ elems, RawsOK e) → RawsOK (.jarr elems raw)
  | obj : ∀ fields raw,
      (∀ kv ∈ fields, SubSpan (Json.raw (Prod.snd kv)) raw) →
      (∀ kv ∈ fields, RawsOK (Prod.snd kv)) →
      RawsOK (.jobj fields raw)

/-- Whether the cancellation signal is visible at loop iteration i, when it
was triggered just before iteration n (none: never triggered). -/
def cancelHit : Option Nat → Nat → Bool
  | none, _ => false
  | some n, i => n ≤ i

/-- Model of the pipeFile loop in main.go, as the list of payloads written:
at iteration i it first checks the cancellation signal (the select arm on
ctx.Done) and stops if visible; otherwise it scans the next line and runs
print on it.  At end of file the loop returns having written nothing more,
whether or not the signal check fires first, so the empty-input equation
merges the two. -/
def pipeFileLoop (outFields : List (List Char)) (outColors : List Nat)
    (cancelAt : Option Nat) : Nat → List (List Char) → List (List Char)
  | _, [] => []
  | i, l :: rest =>
    if cancelHit cancelAt i then []
    else
      printOutputs l outFields outColors ++ pipeFileLoop outFields outColors cancelAt (i + 1) rest

theorem subSpan_refl (x : List Char) : SubSpan x x := ⟨[], [], by simp⟩

theorem subSpan_trans {x y z : List Char} (h1 : SubSpan x y) (h2 : SubSpan y z) :
    SubSpan x z := by
  obtain ⟨l1, r1, e1⟩ := h1
  obtain ⟨l2, r2, e2⟩ := h2
  exact ⟨l2 ++ l1, r1 ++ r2, by rw [← e2, ← e1]; simp⟩

theorem subSpan_append_left {x y : List Char} (z : List Char) (h : SubSpan x y) :
    SubSpan x (z ++ y) := by
  obtain ⟨l, r, e⟩ := h
  exact ⟨z ++ l, r, by rw [← e]; simp⟩

theorem subSpan_append_right {x y : List Char} (z : List Char) (h : SubSpan x y) :
    SubSpan x (y ++ z) := by
  obtain ⟨l, r, e⟩ := h
  exact ⟨l, r ++ z, by rw [← e]; simp⟩

theorem subSpan_cons {x y : List Char} (c : Char) (h : SubSpan x y) :
    SubSpan x (c :: y) := by
  obtain ⟨l, r, e⟩ := h
  exact ⟨c :: l, r, by rw [← e]; simp⟩

theorem parseStrBody_spec : ∀ fuel cs dec con rest,
    parseStrBody fuel cs = some (dec, con, rest) → con ++ rest = cs := by
  intro fuel
  induction fuel with
  | zero =>
    intro cs dec con rest h
    simp [parseStrBody] at h
  | succ f ih =>
    intro cs dec con rest h
    match cs with
    | [] => simp [parseStrBody] at h
    | c :: cs1 =>
      simp only [parseStrBody] at h
      split_ifs at h with h1 h2
      · injection h with h3
        injection h3 with hd h4
        injection h4 with hc hr
        subst hc
        subst hr
        subst h1
        rfl
      · subst h2
        match cs1 with
        | [] => simp at h
        | e :: rest2 =>
          simp only at h
          split_ifs at h with h3
          · subst h3
            match rest2 with
            | [] => simp at h
            | [x1] => simp at h
            | [x1, x2] => simp at h
            | [x1, x2, x3] => simp at h
            | x1 :: x2 :: x3 :: x4 :: rest3 =>
              simp only at h
              split at h
              case _ a b c2 d heq1 heq2 heq3 heq4 =>
                split at h
                case _ dec2 con2 r heq5 =>
                  have h6 := ih _ _ _ _ heq5
                  injection h with h4
                  injection h4 with hd h5
                  injection h5 with hc hr
                  subst hc
                  subst hr
                  simp [← h6]
                case _ => exact absurd h (by simp)
              case _ => exact absurd h (by simp)
          · split at h
            case _ d heq =>
              split at h
              case _ dec2 con2 r heq5 =>
                have h6 := ih _ _ _ _ heq5
                injection h with h4
                injection h4 with hd h5
                injection h5 with hc hr
                subst hc
                subst hr
                simp [← h6]
              case _ => exact absurd h (by simp)
            case _ => exact absurd h (by simp)
      · split at h
        case _ dec2 con2 r heq5 =>
          have h6 := ih _ _ _ _ heq5
          injection h with h4
          injection h4 with hd h5
          injection h5 with hc hr
          subst hc
          subst hr
          simp [← h6]
        case _ => exact absurd h (by simp)

theorem parser_spec : ∀ fuel,
    (∀ cs j rest, parseVal fuel cs = some (j, rest) →
      Json.raw j ++ rest = cs ∧ RawsOK j) ∧
    (∀ cs kv con rest, parseMember fuel cs = some (kv, con, rest) →
      con ++ rest = cs ∧ SubSpan (Json.raw (Prod.snd kv)) con ∧ RawsOK (Prod.snd kv)) ∧
    (∀ first cs kvs con rest, parseObjRest fuel first cs = some (kvs, con, rest) →
      con ++ rest = cs ∧
      ∀ kv ∈ kvs, SubSpan (Json.raw (Prod.snd kv)) con ∧ RawsOK (Prod.snd kv)) ∧
    (∀ first cs vs con rest, parseArrRest fuel first cs = some (vs, con, rest) →
      con ++ rest = cs ∧ ∀ v ∈ vs, SubSpan (Json.raw v) con ∧ RawsOK v) := by
  intro fuel
  induction fuel with
  | zero =>
    refine ⟨?_, ?_, ?_, ?_⟩
    · intro cs j rest h
      simp [parseVal] at h
    · intro cs kv con rest h
      simp [parseMember] at h
    · intro first cs kvs con rest h
      simp [parseObjRest] at h
    · intro first cs vs con rest h
      simp [parseArrRest] at h
  | succ f ih =>
    obtain ⟨ihV, ihM, ihO, ihA⟩ := ih
    refine ⟨?_, ?_, ?_, ?_⟩
    · -- parseVal
      intro cs j rest h
      match cs with
      | [] => simp [parseVal] at h
      | c :: cs1 =>
        simp only [parseVal] at h
        split_ifs at h with h1 h2 h3 h4 h5 h6 h7
        · -- object
          subst h1
          split at h
          case _ fields con r heq =>
            obtain ⟨e1, e2⟩ := ihO true cs1 fields con r heq
            injection h with h8
            injection h8 with hj hr
            subst hj
            subst hr
            refine ⟨by simp [Json.raw, ← e1], ?_⟩
            exact RawsOK.obj _ _ (fun kv hkv => subSpan_cons '{' ((e2 kv hkv).1))
              (fun kv hkv => (e2 kv hkv).2)
          case _ => simp at h
        · -- array
          subst h2
          split at h
          case _ elems con r heq =>
            obtain ⟨e1, e2⟩ := ihA true cs1 elems con r heq
            injection h with h8
            injection h8 with hj hr
            subst hj
            subst hr
            refine ⟨by simp [Json.raw, ← e1], ?_⟩
            exact RawsOK.arr _ _ (fun v hv => subSpan_cons '[' ((e2 v hv).1))
              (fun v hv => (e2 v hv).2)
          case _ => simp at h
        · -- string
          subst h3
          split at h
          case _ dec con r heq =>
            have e1 := parseStrBody_spec _ _ _ _ _ heq
            injection h with h8
            injection h8 with hj hr
            subst hj
            subst hr
            exact ⟨by simp [Json.raw, ← e1], RawsOK.str _ _⟩
          case _ => simp at h
        · -- true literal
          subst h4
          split at h
          case _ r =>
            injection h with h8
            injection h8 with hj hr
            subst hj
            subst hr
            exact ⟨rfl, RawsOK.bool _ _⟩
          case _ => simp at h
        · -- false literal
          subst h5
          split at h
          case _ r =>
            injection h with h8
            injection h8 with hj hr
            subst hj
            subst hr
            exact ⟨rfl, RawsOK.bool _ _⟩
          case _ => simp at h
        · -- null literal
          subst h6
          split at h
          case _ r =>
            injection h with h8
            injection h8 with hj hr
            subst hj
            subst hr
            exact ⟨rfl, RawsOK.null _⟩
          case _ => simp at h
        · -- number
          injection h with h8
          injection h8 with hj hr
          subst hj
          subst hr
          exact ⟨by simp [Json.raw, List.takeWhile_append_dropWhile], RawsOK.num _⟩
    · -- parseMember
      intro cs kv con rest h
      match cs with
      | [] => simp [parseMember] at h
      | c :: cs1 =>
        simp only [parseMember] at h
        split_ifs at h with h1
        · subst h1
          split at h
          case _ key kcon r2 heqS =>
            split at h
            case _ r4 heqD =>
              split at h
              case _ v r6 heqV =>
                have e1 := parseStrBody_spec _ _ _ _ _ heqS
                obtain ⟨e3, hOK⟩ := ihV _ _ _ heqV
                injection h with h8
                injection h8 with hkv h9
                injection h9 with hcon hrest
                subst hkv
                subst hcon
                subst hrest
                refine ⟨?_, ?_, hOK⟩
                · have e2 : List.takeWhile isJsonWs r2 ++ List.dropWhile isJsonWs r2 = r2 :=
                    List.takeWhile_append_dropWhile _ _
                  have e4 : List.takeWhile isJsonWs r4 ++ List.dropWhile isJsonWs r4 = r4 :=
                    List.takeWhile_append_dropWhile _ _
                  simp only [List.cons_append, List.append_assoc]
                  rw [e3, e4, ← heqD, e2, e1]
                · exact ⟨'"' :: kcon ++ List.takeWhile isJsonWs r2 ++
                    ':' :: List.takeWhile isJsonWs r4, [], by simp⟩
              case _ => simp at h
            case _ => simp at h
          case _ => simp at h
    · -- parseObjRest
      intro first cs kvs con rest h
      simp only [parseObjRest] at h
      split at h
      case _ heqD => simp at h
      case _ c r1 heqD =>
        split_ifs at h with h1 h2 h3
        · -- closing brace
          subst h1
          injection h with h8
          injection h8 with hkvs h9
          injection h9 with hcon hrest
          subst hkvs
          subst hcon
          subst hrest
          refine ⟨?_, by simp⟩
          have e2 : List.takeWhile isJsonWs cs ++ List.dropWhile isJsonWs cs = cs :=
            List.takeWhile_append_dropWhile _ _
          rw [heqD] at e2
          simp only [List.append_assoc, List.cons_append, List.nil_append]
          exact e2
        · -- first member (no comma)
          split at h
          case _ kv mcon mrest heqM =>
            split at h
            case _ kvs2 con2 rest2 heqO =>
              obtain ⟨e1, eS, eOK⟩ := ihM _ _ _ _ heqM
              obtain ⟨e2, e3⟩ := ihO _ _ _ _ _ heqO
              injection h with h8
              injection h8 with hkvs h9
              injection h9 with hcon hrest
              subst hkvs
              subst hcon
              subst hrest
              have e4 : List.takeWhile isJsonWs cs ++ List.dropWhile isJsonWs cs = cs :=
                List.takeWhile_append_dropWhile _ _
              rw [heqD] at e4
              constructor
              · simp only [List.append_assoc]
                rw [e2, e1]
                exact e4
              · intro x hx
                rcases List.mem_cons.mp hx with hx1 | hx2
                · subst hx1
                  exact ⟨subSpan_append_right con2
                    (subSpan_append_left (List.takeWhile isJsonWs cs) eS), eOK⟩
                · refine ⟨?_, (e3 x hx2).2⟩
                  have := subSpan_append_left (List.takeWhile isJsonWs cs ++ mcon) ((e3 x hx2).1)
                  simpa [List.append_assoc] using this
            case _ => simp at h
          case _ => simp at h
        · -- comma then member
          subst h3
          split at h
          case _ kv mcon mrest heqM =>
            split at h
            case _ kvs2 con2 rest2 heqO =>
              obtain ⟨e1, eS, eOK⟩ := ihM _ _ _ _ heqM
              obtain ⟨e2, e3⟩ := ihO _ _ _ _ _ heqO
              injection h with h8
              injection h8 with hkvs h9
              injection h9 with hcon hrest
              subst hkvs
              subst hcon
              subst hrest
              have e4 : List.takeWhile isJsonWs cs ++ List.dropWhile isJsonWs cs = cs :=
                List.takeWhile_append_dropWhile _ _
              rw [heqD] at e4
              have e5 : List.takeWhile isJsonWs r1 ++ List.dropWhile isJsonWs r1 = r1 :=
                List.takeWhile_append_dropWhile _ _
              constructor
              · simp only [List.append_assoc, List.cons_append]
                rw [e2, e1, e5]
                exact e4
              · intro x hx
                rcases List.mem_cons.mp hx with hx1 | hx2
                · subst hx1
                  refine ⟨?_, eOK⟩
                  have := subSpan_append_right con2
                    (subSpan_append_left
                      (List.takeWhile isJsonWs cs ++ ',' :: List.takeWhile isJsonWs r1) eS)
                  simpa [List.append_assoc] using this
                · refine ⟨?_, (e3 x hx2).2⟩
                  have := subSpan_append_left
                    (List.takeWhile isJsonWs cs ++ ',' :: List.takeWhile isJsonWs r1 ++ mcon)
                    ((e3 x hx2).1)
                  simpa [List.append_assoc] using this
            case _ => simp at h
          case _ => simp at h
    · -- parseArrRest
      intro first cs vs con rest h
      simp only [parseArrRest] at h
      split at h
      case _ heqD => simp at h
      case _ c r1 heqD =>
        split_ifs at h with h1 h2 h3
        · -- closing bracket
          subst h1
          injection h with h8
          injection h8 with hvs h9
          injection h9 with hcon hrest
          subst hvs
          subst hcon
          subst hrest
          refine ⟨?_, by simp⟩
          have e2 : List.takeWhile isJsonWs cs ++ List.dropWhile isJsonWs cs = cs :=
            List.takeWhile_append_dropWhile _ _
          rw [heqD] at e2
          simp only [List.append_assoc, List.cons_append, List.nil_append]
          exact e2
        · -- first element (no comma)
          split at h
          case _ v vrest heqV =>
            split at h
            case _ vs2 con2 rest2 heqA =>
              obtain ⟨e1, eOK⟩ := ihV _ _ _ heqV
              obtain ⟨e2, e3⟩ := ihA _ _ _ _ _ heqA
              injection h with h8
              injection h8 with hvs h9
              injection h9 with hcon hrest
              subst hvs
              subst hcon
              subst hrest
              have e4 : List.takeWhile isJsonWs cs ++ List.dropWhile isJsonWs cs = cs :=
                List.takeWhile_append_dropWhile _ _
              rw [heqD] at e4
              constructor
              · simp only [List.append_assoc]
                rw [e2, e1]
                exact e4
              · intro x hx
                rcases List.mem_cons.mp hx with hx1 | hx2
                · subst hx1
                  refine ⟨?_, eOK⟩
                  exact subSpan_append_right con2
                    (subSpan_append_left (List.takeWhile isJsonWs cs) (subSpan_refl _))
                · refine ⟨?_, (e3 x hx2).2⟩
                  have := subSpan_append_left
                    (List.takeWhile isJsonWs cs ++ Json.raw v) ((e3 x hx2).1)
                  simpa [List.append_assoc] using this
            case _ => simp at h
          case _ => simp at h
        · -- comma then element
          subst h3
          split at h
          case _ v vrest heqV =>
            split at h
            case _ vs2 con2 rest2 heqA =>
              obtain ⟨e1, eOK⟩ := ihV _ _ _ heqV
              obtain ⟨e2, e3⟩ := ihA _ _ _ _ _ heqA
              injection h with h8
              injection h8 with hvs h9
              injection h9 with hcon hrest
              subst hvs
              subst hcon
              subst hrest
              have e4 : List.takeWhile isJsonWs cs ++ List.dropWhile isJsonWs cs = cs :=
                List.takeWhile_append_dropWhile _ _
              rw [heqD] at e4
              have e5 : List.takeWhile isJsonWs r1 ++ List.dropWhile isJsonWs r1 = r1 :=
                List.takeWhile_append_dropWhile _ _
              constructor
              · simp only [List.append_assoc, List.cons_append]
                rw [e2, e1, e5]
                exact e4
              · intro x hx
                rcases List.mem_cons.mp hx with hx1 | hx2
                · subst hx1
                  refine ⟨?_, eOK⟩
                  exact ⟨List.takeWhile isJsonWs cs ++ ',' :: List.takeWhile isJsonWs r1, con2,
                    by simp⟩
                · refine ⟨?_, (e3 x hx2).2⟩
                  have := subSpan_append_left
                    (List.takeWhile isJsonWs cs ++ ',' :: List.takeWhile isJsonWs r1 ++ Json.raw v)
                    ((e3 x hx2).1)
                  simpa [List.append_assoc] using this
            case _ => simp at h
          case _ => simp at h

theorem getPath_spec : ∀ ks j j2, RawsOK j → getPath ks j = some j2 →
    SubSpan (Json.raw j2) (Json.raw j) ∧ RawsOK j2 := by
  intro ks
  induction ks with
  | nil =>
    intro j j2 hOK h
    simp only [getPath] at h
    injection h with h1
    subst h1
    exact ⟨subSpan_refl _, hOK⟩
  | cons k ks ih =>
    intro j j2 hOK h
    match j with
    | .jnull raw => simp [getPath] at h
    | .jbool b raw => simp [getPath] at h
    | .jnum raw => simp [getPath] at h
    | .jstr s raw => simp [getPath] at h
    | .jobj fields raw =>
      simp only [getPath] at h
      split at h
      case _ kv heq =>
        have hmem := List.mem_of_find?_eq_some heq
        cases hOK with
        | obj _ _ hS hR =>
          obtain ⟨h1, h2⟩ := ih kv.2 j2 (hR kv hmem) h
          exact ⟨subSpan_trans h1 (hS kv hmem), h2⟩
      case _ => simp at h
    | .jarr elems raw =>
      simp only [getPath] at h
      split at h
      case _ i heq =>
        split at h
        case _ e heq2 =>
          have hmem := List.get?_mem heq2
          cases hOK with
          | arr _ _ hS hR =>
            obtain ⟨h1, h2⟩ := ih e j2 (hR e hmem) h
            exact ⟨subSpan_trans h1 (hS e hmem), h2⟩
        case _ => simp at h
      case _ => simp at h

theorem parseLine_spec : ∀ line j, parseLine line = some j →
    SubSpan (Json.raw j) line ∧ RawsOK j := by
  intro line j h
  simp only [parseLine] at h
  split at h
  case _ j2 rest heq =>
    split_ifs at h with h1
    · injection h with h2
      subst h2
      obtain ⟨e1, hOK⟩ := (parser_spec _).1 _ _ _ heq
      refine ⟨⟨List.takeWhile isJsonWs line, rest, ?_⟩, hOK⟩
      rw [List.append_assoc, e1]
      exact List.takeWhile_append_dropWhile _ _
  case _ => simp at h

theorem colorWrap_getLast : ∀ c s, (colorWrap c s).getLast? = some 'm' := by
  intro c s
  unfold colorWrap
  rw [List.getLast?_append_of_ne_nil _ (by simp)]
  rfl

theorem fieldSegment_getLast : ∀ outColors idx val,
    (fieldSegment outColors idx val).getLast? = some '\t' ∨
    (fieldSegment outColors idx val).getLast? = some 'm' := by
  intro outColors idx val
  unfold fieldSegment
  split
  · right
    exact colorWrap_getLast _ _
  · left
    rw [List.getLast?_append_of_ne_nil _ (by simp)]
    rfl

theorem buffAux_getLast : ∀ line outColors fs i,
    buffAux line outColors i fs = [] ∨
    (buffAux line outColors i fs).getLast? = some '\t' ∨
    (buffAux line outColors i fs).getLast? = some 'm' := by
  intro line outColors fs
  induction fs with
  | nil => intro i; left; rfl
  | cons f fs ih =>
    intro i
    simp only [buffAux]
    rcases ih (i + 1) with h0 | h1 | h1
    all_goals
      first
      | (rw [h0, List.append_nil]
         split_ifs with ht
         · left; rfl
         · right; exact fieldSegment_getLast _ _ _)
      | (have hne : buffAux line outColors (i + 1) fs ≠ [] := by
           intro hh
           rw [hh] at h1
           simp at h1
         rw [List.getLast?_append_of_ne_nil _ hne]
         right
         first | (left; exact h1) | (right; exact h1))

theorem buffAux_skip : ∀ line outColors i f fs,
    trimSpace (extractVal line f) = [] →
    buffAux line outColors i (f :: fs) = buffAux line outColors (i + 1) fs := by
  intro line outColors i f fs h
  simp [buffAux, h]

theorem buffAux_empty_of_all : ∀ line outColors fs i,
    (∀ f ∈ fs, trimSpace (extractVal line f) = []) →
    buffAux line outColors i fs = [] := by
  intro line outColors fs
  induction fs with
  | nil => intro i h; rfl
  | cons f fs ih =>
    intro i h
    rw [buffAux_skip line outColors i f fs (h f (by simp))]
    exact ih (i + 1) (fun g hg => h g (by simp [hg]))

theorem buffAux_colors_congr : ∀ line fs outColors1 outColors2 i,
    (∀ idx, i ≤ idx → idx < i + fs.length → outColors1.get? idx = outColors2.get? idx) →
    buffAux line outColors1 i fs = buffAux line outColors2 i fs := by
  intro line fs
  induction fs with
  | nil => intro c1 c2 i h; rfl
  | cons f fs ih =>
    intro c1 c2 i h
    simp only [buffAux]
    rw [ih c1 c2 (i + 1) (fun idx h1 h2 => h idx (by omega) (by simp at h2 ⊢; omega))]
    have hseg : fieldSegment c1 i (extractVal line f) = fieldSegment c2 i (extractVal line f) := by
      unfold fieldSegment
      rw [h i (by omega) (by simp)]
    rw [hseg]

theorem buffAux_nil_colors_tab : ∀ line fs i,
    buffAux line [] i fs = [] ∨ ∃ t, buffAux line [] i fs = t ++ ['\t'] := by
  intro line fs
  induction fs with
  | nil => intro i; left; rfl
  | cons f fs ih =>
    intro i
    simp only [buffAux]
    rcases ih (i + 1) with h0 | ⟨t, ht⟩
    · rw [h0, List.append_nil]
      split_ifs with h1
      · left; rfl
      · right
        exact ⟨extractVal line f, by simp [fieldSegment]⟩
    · right
      rw [ht]
      exact ⟨(if trimSpace (extractVal line f) = [] then []
        else fieldSegment [] i (extractVal line f)) ++ t, by simp⟩

theorem pipeFileLoop_cancel : ∀ outFields outColors n lines i,
    pipeFileLoop outFields outColors (some n) i lines =
    pipeFileLoop outFields outColors none i (lines.take (n - i)) := by
  intro F C n lines
  induction lines with
  | nil =>
    intro i
    simp [pipeFileLoop]
  | cons l rest ih =>
    intro i
    by_cases h : n ≤ i
    · have h0 : n - i = 0 := by omega
      have hc : cancelHit (some n) i = true := by simp [cancelHit, h]
      rw [h0, List.take_zero]
      simp only [pipeFileLoop, hc]
      simp
    · have h2 : n - i = (n - (i + 1)) + 1 := by omega
      have hc : cancelHit (some n) i = false := by
        simp only [cancelHit, decide_eq_false_iff_not]
        omega
      rw [h2, List.take_succ_cons]
      simp only [pipeFileLoop, hc]
      simp only [cancelHit, Bool.false_eq_true, if_false]
      rw [ih (i + 1)]

theorem pipeFileLoop_prefix : ∀ outFields outColors n lines i,
    ∃ t, pipeFileLoop outFields outColors (some n) i lines ++ t =
      pipeFileLoop outFields outColors none i lines := by
  intro F C n lines
  induction lines with
  | nil =>
    intro i
    exact ⟨[], rfl⟩
  | cons l rest ih =>
    intro i
    by_cases h : n ≤ i
    · have hc : cancelHit (some n) i = true := by simp [cancelHit, h]
      refine ⟨printOutputs l F C ++ pipeFileLoop F C none (i + 1) rest, ?_⟩
      simp only [pipeFileLoop, hc]
      simp [cancelHit]
    · have hc : cancelHit (some n) i = false := by
        simp only [cancelHit, decide_eq_false_iff_not]
        omega
      obtain ⟨t, ht⟩ := ih (i + 1)
      refine ⟨t, ?_⟩
      simp only [pipeFileLoop, hc]
      simp only [cancelHit, Bool.false_eq_true, if_false]
      rw [List.append_assoc, ht]

/-- Claim C1 counterexample: print appends a tab after every emitted field,
the last included, so the first scenario line does not produce the tab-free
ending claimed, and the second does not produce a bare value and newline. -/
theorem claim_C1_cex :
    ¬ (print "\x7b\"time\":\"T1\",\"level\":\"info\",\"msg\":\"hi\"\x7d".data
        ["time".data, "level".data, "msg".data] [] = some "T1\tinfo\thi\n".data) ∧
    ¬ (print "\x7b\"time\":\"T1\",\"msg\":\"\"\x7d".data ["time".data, "msg".data] [] =
        some "T1\n".data) := by
  constructor <;> decide

/-- Claim C1 (amended): every emitted field, the last included, is followed
by a tab, so the first scenario line produces the bytes T1, tab, info, tab,
hi, tab, newline, the second produces T1, tab, newline, and in general with
no colors every payload print writes ends in a tab directly followed by the
final newline. -/
theorem claim_C1 :
    print "\x7b\"time\":\"T1\",\"level\":\"info\",\"msg\":\"hi\"\x7d".data
      ["time".data, "level".data, "msg".data] [] = some "T1\tinfo\thi\t\n".data ∧
    print "\x7b\"time\":\"T1\",\"msg\":\"\"\x7d".data ["time".data, "msg".data] [] =
      some "T1\t\n".data ∧
    ∀ line outFields s, print line outFields [] = some s → ∃ t, s = t ++ "\t\n".data := by
  refine ⟨by decide, by decide, ?_⟩
  intro line F s h
  simp only [print] at h
  split_ifs at h with h1
  injection h with h2
  subst h2
  rcases buffAux_nil_colors_tab line F 0 with h0 | ⟨t, ht⟩
  · exact absurd h0 h1
  · exact ⟨t, by rw [ht, List.append_assoc]; rfl⟩

/-- Claim C1 witness: the trailing tab-and-newline property instantiated on
the first scenario payload. -/
theorem claim_C1_witness :
    ∃ t, "T1\tinfo\thi\t\n".data = t ++ "\t\n".data :=
  claim_C1.2.2 "\x7b\"time\":\"T1\",\"level\":\"info\",\"msg\":\"hi\"\x7d".data
    ["time".data, "level".data, "msg".data] "T1\tinfo\thi\t\n".data (by decide)

/-- Claim C2 counterexample: print reads Result.Str, which gjson populates
only for String-typed results, so the path count on an object holding the
number 5 extracts the empty value rather than the decoded form 5, and the
line produces no output at all. -/
theorem claim_C2_cex :
    extractVal "\x7b\"count\":5\x7d".data "count".data ≠ "5".data ∧
    print "\x7b\"count\":5\x7d".data ["count".data] [] = none := by
  constructor <;> decide

/-- Claim C2 (amended): a path resolving to a string scalar extracts the
decoded string form, and when that value does not trim to empty it is
emitted as an output segment; paths resolving to number, boolean or null
scalars extract the empty value and are omitted. -/
theorem claim_C2 :
    ∀ line path j sub, parseLine line = some j →
      getPath (splitOnChar '.' path) j = some sub →
      (∀ s raw, sub = Json.jstr s raw → extractVal line path = s) ∧
      (∀ s raw, sub = Json.jstr s raw → trimSpace s ≠ [] →
        ∀ outColors i fs, buffAux line outColors i (path :: fs) =
          fieldSegment outColors i s ++ buffAux line outColors (i + 1) fs) ∧
      (∀ raw, sub = Json.jnum raw → extractVal line path = []) ∧
      (∀ b raw, sub = Json.jbool b raw → extractVal line path = []) ∧
      (∀ raw, sub = Json.jnull raw → extractVal line path = []) := by
  intro line path j sub h1 h2
  have hstr : ∀ s raw, sub = Json.jstr s raw → extractVal line path = s := by
    intro s raw hsub
    subst hsub
    simp [extractVal, gjsonGet, h1, h2, resultOf]
  refine ⟨hstr, ?_, ?_, ?_, ?_⟩
  · intro s raw hsub hne C i fs
    rw [show buffAux line C i (path :: fs) =
      (if trimSpace (extractVal line path) = [] then []
        else fieldSegment C i (extractVal line path)) ++ buffAux line C (i + 1) fs from rfl]
    rw [hstr s raw hsub]
    simp [hne]
  · intro raw hsub
    subst hsub
    simp [extractVal, gjsonGet, h1, h2, resultOf]
  · intro b raw hsub
    subst hsub
    cases b <;> simp [extractVal, gjsonGet, h1, h2, resultOf]
  · intro raw hsub
    subst hsub
    simp [extractVal, gjsonGet, h1, h2, resultOf]

/-- Claim C2 witness: on an object with a string field the decoded string is
extracted and emitted; on an object with a numeric field the empty value is
extracted. -/
theorem claim_C2_witness :
    extractVal "\x7b\"msg\":\"hi\"\x7d".data "msg".data = "hi".data ∧
    extractVal "\x7b\"count\":5\x7d".data "count".data = [] := by
  constructor
  · exact (claim_C2 "\x7b\"msg\":\"hi\"\x7d".data "msg".data
      (Json.jobj [("msg".data, Json.jstr "hi".data "\"hi\"".data)]
        "\x7b\"msg\":\"hi\"\x7d".data)
      (Json.jstr "hi".data "\"hi\"".data) (by rfl) (by rfl)).1 _ _ rfl
  · exact (claim_C2 "\x7b\"count\":5\x7d".data "count".data
      (Json.jobj [("count".data, Json.jnum "5".data)] "\x7b\"count\":5\x7d".data)
      (Json.jnum "5".data) (by rfl) (by rfl)).2.2.1 _ rfl

/-- Claim C3: when a line is not well-formed JSON every path lookup returns
the empty gjson result, every extracted value is empty, and print writes
nothing; the formatter is a total function, so no error reaches its caller. -/
theorem claim_C3 :
    ∀ line path outFields outColors, parseLine line = none →
      gjsonGet line path = emptyGResult ∧ extractVal line path = [] ∧
      print line outFields outColors = none := by
  intro line path F C h
  have hg : ∀ p, gjsonGet line p = emptyGResult := by
    intro p
    simp [gjsonGet, h]
  have he : ∀ p, extractVal line p = [] := by
    intro p
    simp [extractVal, hg p, emptyGResult]
  refine ⟨hg path, he path, ?_⟩
  simp only [print]
  rw [buffAux_empty_of_all line C F 0 (fun f _ => by rw [he f]; rfl)]
  simp

/-- Claim C3 witness: the malformed line hello yields the empty result, the
empty value and no output. -/
theorem claim_C3_witness :
    gjsonGet "hello".data "time".data = emptyGResult ∧
    extractVal "hello".data "time".data = [] ∧
    print "hello".data ["time".data, "msg".data] [] = none :=
  claim_C3 "hello".data "time".data ["time".data, "msg".data] [] (by rfl)

/-- Claim C4: once the cancellation signal is triggered before iteration n,
a file pump emits exactly the payloads of the first n lines (it never reads
or processes a later line), what it emitted is a prefix of the uncancelled
run's output, and from any iteration at which the signal is visible it
stops immediately, emitting nothing further. -/
theorem claim_C4 :
    ∀ outFields outColors n lines,
      pipeFileLoop outFields outColors (some n) 0 lines =
        pipeFileLoop outFields outColors none 0 (lines.take n) ∧
      (∃ t, pipeFileLoop outFields outColors (some n) 0 lines ++ t =
        pipeFileLoop outFields outColors none 0 lines) ∧
      ∀ i lines2, cancelHit (some n) i = true →
        pipeFileLoop outFields outColors (some n) i lines2 = [] := by
  intro F C n lines
  refine ⟨?_, pipeFileLoop_prefix F C n lines 0, ?_⟩
  · have h := pipeFileLoop_cancel F C n lines 0
    simpa using h
  · intro i lines2 h
    cases lines2 with
    | nil => rfl
    | cons l rest => simp [pipeFileLoop, h]

/-- Claim C4 witness: with the signal triggered before iteration 1, a pump
over two lines emits only the first payload, and at a visible signal it
emits nothing. -/
theorem claim_C4_witness :
    pipeFileLoop ["t".data] [] (some 1) 0
        ["\x7b\"t\":\"x\"\x7d".data, "\x7b\"t\":\"y\"\x7d".data] =
      pipeFileLoop ["t".data] [] none 0
        (["\x7b\"t\":\"x\"\x7d".data, "\x7b\"t\":\"y\"\x7d".data].take 1) ∧
    pipeFileLoop ["t".data] [] (some 1) 1 ["\x7b\"t\":\"y\"\x7d".data] = [] :=
  ⟨(claim_C4 ["t".data] [] 1
      ["\x7b\"t\":\"x\"\x7d".data, "\x7b\"t\":\"y\"\x7d".data]).1,
   (claim_C4 ["t".data] [] 1 []).2.2 1 ["\x7b\"t\":\"y\"\x7d".data] (by decide)⟩

/-- Claim C5: a field whose extracted value trims to empty contributes no
output segment at its index, the loop moving straight to the next field,
and a path absent from a well-formed document extracts the empty value. -/
theorem claim_C5 :
    (∀ line outColors i f fs, trimSpace (extractVal line f) = [] →
      buffAux line outColors i (f :: fs) = buffAux line outColors (i + 1) fs) ∧
    (∀ line j f, parseLine line = some j →
      getPath (splitOnChar '.' f) j = none → extractVal line f = []) := by
  constructor
  · exact buffAux_skip
  · intro line j f h1 h2
    simp [extractVal, gjsonGet, h1, h2, emptyGResult]

/-- Claim C5 witness: a whitespace-only string field is skipped entirely and
an absent path extracts the empty value. -/
theorem claim_C5_witness :
    buffAux "\x7b\"a\":\" \"\x7d".data [] 0 ["a".data, "b".data] =
      buffAux "\x7b\"a\":\" \"\x7d".data [] 1 ["b".data] ∧
    extractVal "\x7b\"a\":\" \"\x7d".data "b".data = [] := by
  constructor
  · exact claim_C5.1 "\x7b\"a\":\" \"\x7d".data [] 0 "a".data ["b".data] (by decide)
  · exact claim_C5.2 "\x7b\"a\":\" \"\x7d".data
      (Json.jobj [("a".data, Json.jstr " ".data "\" \"".data)] "\x7b\"a\":\" \"\x7d".data)
      "b".data (by rfl) (by rfl)

/-- Claim C6: when every requested field extracts a value that trims to
empty, print writes nothing at all, not even a bare newline. -/
theorem claim_C6 :
    ∀ line outFields outColors,
      (∀ f ∈ outFields, trimSpace (extractVal line f) = []) →
      print line outFields outColors = none := by
  intro line F C h
  simp only [print]
  rw [buffAux_empty_of_all line C F 0 h]
  simp

/-- Claim C6 witness: the empty object with fields time and msg produces no
output. -/
theorem claim_C6_witness :
    print "\x7b\x7d".data ["time".data, "msg".data] [] = none :=
  claim_C6 "\x7b\x7d".data ["time".data, "msg".data] [] (by decide)

/-- Claim C7: a path resolving to a container extracts exactly the raw span
recorded for that node, and that span occurs byte for byte as a contiguous
span of the input line. -/
theorem claim_C7 :
    ∀ line path j sub, parseLine line = some j →
      getPath (splitOnChar '.' path) j = some sub →
      Json.isContainer sub = true →
      extractVal line path = Json.raw sub ∧ SubSpan (Json.raw sub) line := by
  intro line path j sub h1 h2 hc
  obtain ⟨hspan, hok⟩ := parseLine_spec line j h1
  obtain ⟨hspan2, _⟩ := getPath_spec _ _ _ hok h2
  cases sub with
  | jnull raw => simp [Json.isContainer] at hc
  | jbool b raw => simp [Json.isContainer] at hc
  | jnum raw => simp [Json.isContainer] at hc
  | jstr s raw => simp [Json.isContainer] at hc
  | jarr elems raw =>
    exact ⟨by simp [extractVal, gjsonGet, h1, h2, resultOf, Json.raw],
      subSpan_trans hspan2 hspan⟩
  | jobj fields raw =>
    exact ⟨by simp [extractVal, gjsonGet, h1, h2, resultOf, Json.raw],
      subSpan_trans hspan2 hspan⟩

/-- Claim C7 witness: the path a on an object holding the array of one
number extracts the raw text of that array, which occurs contiguously in
the line. -/
theorem claim_C7_witness :
    extractVal "\x7b\"a\":[1]\x7d".data "a".data = "[1]".data ∧
    SubSpan "[1]".data "\x7b\"a\":[1]\x7d".data := by
  have h := claim_C7 "\x7b\"a\":[1]\x7d".data "a".data
    (Json.jobj [("a".data, Json.jarr [Json.jnum "1".data] "[1]".data)]
      "\x7b\"a\":[1]\x7d".data)
    (Json.jarr [Json.jnum "1".data] "[1]".data)
    (by rfl) (by rfl) (by rfl)
  exact ⟨h.1, h.2⟩

/-- Claim C8: an empty or all-whitespace color spec yields the empty
directive list; otherwise each comma token is mapped independently; the
mapping depends only on the trimmed lowercased token, and any token outside
the recognized color names maps to the Reset attribute, never an error. -/
theorem claim_C8 :
    (∀ s, trimSpace s = [] → getColorFormat s = []) ∧
    (∀ s, trimSpace s ≠ [] →
      getColorFormat s = (splitOnChar ',' s).map colorOfToken) ∧
    (∀ t u, (trimSpace t).map Char.toLower = (trimSpace u).map Char.toLower →
      colorOfToken t = colorOfToken u) ∧
    (∀ t, (trimSpace t).map Char.toLower ∉ colorNames → colorOfToken t = 0) := by
  refine ⟨?_, ?_, ?_, ?_⟩
  · intro s h
    simp [getColorFormat, h]
  · intro s h
    have h2 : ¬ s.length = 0 := by
      intro h3
      rw [List.length_eq_zero] at h3
      subst h3
      exact h rfl
    simp [getColorFormat, h, h2]
  · intro t u h
    simp [colorOfToken, h]
  · intro t h
    simp only [colorNames, List.mem_cons, List.not_mem_nil, or_false, not_or] at h
    obtain ⟨h1, h2, h3, h4, h5, h6, h7, h8⟩ := h
    simp [colorOfToken, colorAttr, h1, h2, h3, h4, h5, h6, h7, h8]

/-- Claim C8 witness: an all-whitespace spec yields no directives, a plain
token is mapped per token, trimming and case do not matter, and an unknown
name maps to Reset. -/
theorem claim_C8_witness :
    getColorFormat "   ".data = [] ∧
    getColorFormat "red".data = (splitOnChar ',' "red".data).map colorOfToken ∧
    colorOfToken " RED ".data = colorOfToken "red".data ∧
    colorOfToken "pink".data = 0 :=
  ⟨claim_C8.1 "   ".data (by decide), claim_C8.2.1 "red".data (by decide),
   claim_C8.2.2.1 " RED ".data "red".data (by decide),
   claim_C8.2.2.2 "pink".data (by decide)⟩

/-- Claim C9: a color directive at a field index wraps that field's
value-plus-tab segment in the directive's escape sequence, an index beyond
the color list is emitted plain, and directives beyond the field list never
affect the output. -/
theorem claim_C9 :
    (∀ line outFields outColors,
      print line outFields outColors =
        print line outFields (outColors.take outFields.length)) ∧
    (∀ outColors idx c val, outColors.get? idx = some c →
      fieldSegment outColors idx val = colorWrap c (val ++ ['\t'])) ∧
    (∀ outColors idx val, outColors.length ≤ idx →
      fieldSegment outColors idx val = val ++ ['\t']) := by
  refine ⟨?_, ?_, ?_⟩
  · intro line F C
    simp only [print]
    rw [buffAux_colors_congr line F C (C.take F.length) 0
      (fun idx h1 h2 => (List.get?_take (by omega)).symm)]
  · intro C idx c val h
    rw [List.get?_eq_getElem?] at h
    simp [fieldSegment, h]
  · intro C idx val h
    have h2 : C.get? idx = none := List.get?_eq_none.mpr h
    rw [List.get?_eq_getElem?] at h2
    simp [fieldSegment, h2]

/-- Claim C9 witness: with one red directive, field 0 is wrapped and field 1
is plain. -/
theorem claim_C9_witness :
    fieldSegment [31] 0 "A".data = colorWrap 31 ("A".data ++ ['\t']) ∧
    fieldSegment [31] 1 "B".data = "B".data ++ ['\t'] :=
  ⟨claim_C9.2.1 [31] 0 31 "A".data (by rfl),
   claim_C9.2.2 [31] 1 "B".data (by decide)⟩

/-- Claim C10: one print call performs at most one write, and every payload
it writes is non-empty and ends in exactly one newline, never a bare
newline and never a partial fragment without its newline. -/
theorem claim_C10 :
    ∀ line outFields outColors,
      (printOutputs line outFields outColors).length ≤ 1 ∧
      ∀ s ∈ printOutputs line outFields outColors,
        s ≠ [] ∧ s.getLast? = some '\n' ∧
        s.dropLast ≠ [] ∧ ¬ s.dropLast.getLast? = some '\n' := by
  intro line F C
  constructor
  · unfold printOutputs
    split <;> simp
  · intro s hs
    unfold printOutputs at hs
    split at hs
    · simp at hs
    case _ p hp =>
      rw [List.mem_singleton] at hs
      subst hs
      simp only [print] at hp
      split_ifs at hp with h1
      injection hp with h2
      subst h2
      refine ⟨by simp, List.getLast?_concat _, ?_, ?_⟩
      · rw [List.dropLast_concat]
        exact h1
      · rw [List.dropLast_concat]
        rcases buffAux_getLast line C F 0 with h0 | hT | hM
        · exact absurd h0 h1
        · rw [hT]
          simp
        · rw [hM]
          simp

/-- Claim C10 witness: the single payload written for the second scenario
line is non-empty, ends in one newline, and is not a bare newline. -/
theorem claim_C10_witness :
    "T1\t\n".data ≠ [] ∧ "T1\t\n".data.getLast? = some '\n' ∧
    "T1\t\n".data.dropLast ≠ [] ∧ ¬ "T1\t\n".data.dropLast.getLast? = some '\n' :=
  (claim_C10 "\x7b\"time\":\"T1\",\"msg\":\"\"\x7d".data ["time".data, "msg".data] []).2
    "T1\t\n".data (by decide)
